import Mathlib

/-!
Verification of the `updvcspins` pin-resolution and rewrite engine.

Rust strings are modelled as `List Char`; machine-level concerns (UTF-8
validity of shell output, file descriptors) do not arise for the verified
properties.  External collaborators (the shell evaluator, the git
repository library, `std::path`/the `url` crate, and the file system) are
modelled as explicit oracle functions quantified over in the theorems, so
every statement holds for arbitrary collaborator behaviour.  Fallible Rust
functions returning `Result` are modelled with `Except Err`.
-/

namespace Updvcspins

abbrev Str := List Char

abbrev Err := String

instance {ε α : Type} [DecidableEq ε] [DecidableEq α] : DecidableEq (Except ε α) := fun x y =>
  match x, y with
  | .ok a, .ok b =>
    if h : a = b then .isTrue (by rw [h]) else .isFalse (by intro hc; cases hc; exact h rfl)
  | .error a, .error b =>
    if h : a = b then .isTrue (by rw [h]) else .isFalse (by intro hc; cases hc; exact h rfl)
  | .ok _, .error _ => .isFalse (by intro hc; cases hc)
  | .error _, .ok _ => .isFalse (by intro hc; cases hc)

/-! ### Literal markers used by the codec (src/git.rs) and the parsers (src/makepkg.rs) -/

def qsignedM : Str := ['?', 's', 'i', 'g', 'n', 'e', 'd']

def commitM : Str := ['#', 'c', 'o', 'm', 'm', 'i', 't', '=']

def tagM : Str := ['#', 't', 'a', 'g', '=']

def schemeSepM : Str := [':', '/', '/']

def colonsM : Str := [':', ':']

def gitM : Str := ['g', 'i', 't']

def httpsM : Str := ['h', 't', 't', 'p', 's']

def httpM : Str := ['h', 't', 't', 'p']

def ftpM : Str := ['f', 't', 'p']

/-! ### Models of the Rust `str` primitives used by the source -/

/-- Model of Rust `str::strip_suffix`: removes `pat` from the end of `s`
when it is a suffix, otherwise yields `none`. -/
def stripSuffixQ (s pat : Str) : Option Str :=
  if pat <:+ s then some (s.take (s.length - pat.length)) else none

/-- Largest index `i ≤ n` at which `pat` occurs in `s` (scanning downward
from `n`), or `none`. -/
def lastOccFrom (pat s : Str) : Nat → Option Nat
  | 0 => if pat <+: s then some 0 else none
  | n + 1 => if pat <+: s.drop (n + 1) then some (n + 1) else lastOccFrom pat s n

/-- Model of Rust `str::rsplit_once`: splits `s` at the last occurrence of
`pat`, yielding the part before and the part after the delimiter. -/
def rsplitOnce (s pat : Str) : Option (Str × Str) :=
  match lastOccFrom pat s s.length with
  | some i => some (s.take i, s.drop (i + pat.length))
  | none => none

/-- Model of Rust `str::split_once`: splits `s` at the first occurrence of
`pat`. -/
def splitOnce (pat : Str) : Str → Option (Str × Str)
  | [] => if pat <+: ([] : Str) then some ([], []) else none
  | c :: rest =>
    if pat <+: (c :: rest) then some ([], (c :: rest).drop pat.length)
    else
      match splitOnce pat rest with
      | some (a, b) => some (c :: a, b)
      | none => none

/-- `Result`-collecting map, the model of Rust `collect::<Result<_>>()`
over a fallible closure. -/
def mapExcept {α β : Type} (f : α → Except Err β) : List α → Except Err (List β)
  | [] => .ok []
  | x :: xs =>
    match f x with
    | .error e => .error e
    | .ok y =>
      match mapExcept f xs with
      | .error e => .error e
      | .ok ys => .ok (y :: ys)

/-! ### Data model (src/git.rs, src/makepkg.rs) -/

/-- `struct GitSource` of src/git.rs. -/
structure GitSource where
  url : Str
  commit : Option Str
  tag : Option Str
  signed : Bool
deriving DecidableEq

/-- `impl FromStr for GitSource` (src/git.rs lines 34-64), the body before
the final `Ok(..)`.  Each destructuring match mirrors one `if let` of the
source: strip a trailing `?signed`, rsplit on `#commit=`, rsplit on
`#tag=`, strip a trailing `?signed` again. -/
def GitSource.decode (s0 : Str) : GitSource :=
  match (match stripSuffixQ s0 qsignedM with
         | some r => (true, r)
         | none => (false, s0)) with
  | (signed1, s1) =>
    match (match rsplitOnce s1 commitM with
           | some (r, v) => (some v, r)
           | none => (none, s1)) with
    | (commit, s2) =>
      match (match rsplitOnce s2 tagM with
             | some (r, v) => (some v, r)
             | none => (none, s2)) with
      | (tag, s3) =>
        match stripSuffixQ s3 qsignedM with
        | some r4 => ⟨r4, commit, tag, true⟩
        | none => ⟨s3, commit, tag, signed1⟩

/-- `impl FromStr for GitSource` (src/git.rs line 59): the body always ends
in `Ok(Self { .. })`. -/
def GitSource.fromStr (s : Str) : Except Err GitSource :=
  .ok (GitSource.decode s)

/-- `impl fmt::Display for GitSource` (src/git.rs lines 15-29): `url`, then
`?signed` if signed, then `#commit=..` if set, then `#tag=..` if set. -/
def GitSource.render (g : GitSource) : Str :=
  g.url ++ (if g.signed then qsignedM else [])
    ++ (match g.commit with
        | some c => commitM ++ c
        | none => [])
    ++ (match g.tag with
        | some t => tagM ++ t
        | none => [])

/-- `enum Source` of src/makepkg.rs. -/
inductive Source where
  | File (path : Str)
  | Url (url : Str)
  | Git (git : GitSource)
deriving DecidableEq

/-- `impl fmt::Display for Source` (src/makepkg.rs lines 102-110). -/
def Source.render : Source → Str
  | .File s => s
  | .Url s => s
  | .Git g => GitSource.render g

/-- `impl FromStr for Source` (src/makepkg.rs lines 112-126): classify by
the scheme before the first `://`. -/
def Source.fromStr (s : Str) : Except Err Source :=
  match splitOnce schemeSepM s with
  | some (scheme, _) =>
    if scheme = httpsM then .ok (.Url s)
    else if scheme = httpM then .ok (.Url s)
    else if scheme = ftpM then .ok (.Url s)
    else if gitM <+: scheme then
      match GitSource.fromStr s with
      | .ok g => .ok (.Git g)
      | .error e => .error e
    else .error "Unknown scheme"
  | none => .ok (.File s)

/-- `enum Input` of src/makepkg.rs. -/
inductive Input where
  | Url (source : Source)
  | UrlWithFilename (pair : Source × Str)
deriving DecidableEq

/-- `impl fmt::Display for Input` (src/makepkg.rs lines 46-53). -/
def Input.render : Input → Str
  | .Url url => Source.render url
  | .UrlWithFilename (url, file) => file ++ colonsM ++ Source.render url

/-- `Input::take_source` (src/makepkg.rs lines 38-43). -/
def Input.takeSource : Input → Source
  | .Url url => url
  | .UrlWithFilename (url, _) => url

/-- `Input::source_mut` assignment during rewrite: replace the inner
`Source`, keeping the explicit-filename wrapper (src/main.rs lines 96-97
together with src/makepkg.rs lines 31-36). -/
def Input.withSource : Input → Source → Input
  | .Url _, s => .Url s
  | .UrlWithFilename (_, f), s => .UrlWithFilename (s, f)

/-! ### Filename derivation (src/makepkg.rs lines 17-22 and 68-99)

`Path::file_name` (std) and `Url::parse`/`path_segments` (the `url`
crate) are external collaborators; they are modelled as an oracle record
and the theorems quantify over all oracles.  The UTF-8 validity check of
the source always succeeds in this model since `Str` is a char list. -/

structure Oracles where
  /-- `Path::new(path).file_name()` followed by `to_str`. -/
  pathFileName : Str → Option Str
  /-- `url.parse::<Url>()` then `path_segments()`: `.error` models a parse
  error, `.ok none` a cannot-be-a-base URL, `.ok (some segs)` the segment
  list (whose last element `path_segments().last()` inspects). -/
  urlSegs : Str → Except Err (Option (List Str))

/-- `Source::filename` (src/makepkg.rs lines 68-99): derive the filename
per variant, then fail if it is empty. -/
def Source.filename (o : Oracles) (src : Source) : Except Err Str :=
  match (match src with
         | .File path =>
           match o.pathFileName path with
           | some f => .ok f
           | none => .error "Missing filename"
         | .Url url =>
           match o.urlSegs url with
           | .error e => .error e
           | .ok none => .error "Url contains no path"
           | .ok (some segs) =>
             match segs.getLast? with
             | some f => .ok f
             | none => .error "Path has no filename"
         | .Git git =>
           match o.urlSegs git.url with
           | .error e => .error e
           | .ok none => .error "Url contains no path"
           | .ok (some segs) =>
             match segs.getLast? with
             | some f => .ok f
             | none => .error "Path has no filename" : Except Err Str) with
  | .error e => .error e
  | .ok filename =>
    if filename = [] then .error "Filename cant be empty" else .ok filename

/-- `Input::filename` (src/makepkg.rs lines 17-22): a bare source derives
its filename; an explicit filename is returned as stored. -/
def Input.filename (o : Oracles) : Input → Except Err Str
  | .Url source => Source.filename o source
  | .UrlWithFilename (_, filename) => .ok filename

/-- Entry parsing of `list_source_list_from_var` (src/makepkg.rs lines
168-176): split on the first `::` into explicit filename and source,
otherwise parse the whole line as a source. -/
def parseInputLine (line : Str) : Except Err Input :=
  match splitOnce colonsM line with
  | some (file, url) =>
    match Source.fromStr url with
    | .ok source => .ok (.UrlWithFilename (source, file))
    | .error e => .error e
  | none =>
    match Source.fromStr line with
    | .ok source => .ok (.Url source)
    | .error e => .error e

/-! ### Pin resolution results and the rewrite engine (src/main.rs) -/

/-- `struct ResolvedPin` of src/makepkg.rs lines 128-133. -/
structure ResolvedPin where
  commit_hash : Str
  tag_hash : Str
  source : Source
deriving DecidableEq

/-- Lookup in the `resolved_pins` map by filename (`resolved_pins.get`). -/
def lookupPin : List (Str × ResolvedPin) → Str → Option ResolvedPin
  | [], _ => none
  | (k, v) :: rest, f => if k = f then some v else lookupPin rest f

/-- `HashMap::insert` on the association model: replaces a binding with the
same key, otherwise appends. -/
def insertPin : List (Str × ResolvedPin) → Str → ResolvedPin → List (Str × ResolvedPin)
  | [], k, v => [(k, v)]
  | (k0, v0) :: rest, k, v =>
    if k0 = k then (k, v) :: rest else (k0, v0) :: insertPin rest k v

/-- Context of the rewrite loop: the resolved-pin map, the (arbitrary)
entry its iterator yields first — `resolved_pins.iter().next()`, whose
order a `HashMap` does not specify — and the `--pin-commit` flag. -/
structure RewriteCtx where
  pins : List (Str × ResolvedPin)
  firstPin : Option (Str × ResolvedPin)
  pin_commit : Bool

/-- The wholesale source replacement of src/main.rs lines 96-105: the
entry's source becomes the pin's source, and when that source is Git its
tag/commit metadata is overwritten according to the mode. -/
def pinApply (pc : Bool) (pin : ResolvedPin) : Source :=
  match pin.source with
  | .Git g =>
    if pc then .Git ⟨g.url, some pin.commit_hash, none, g.signed⟩
    else .Git ⟨g.url, g.commit, some pin.tag_hash, g.signed⟩
  | s => s

/-- One iteration of the source-array loop of src/main.rs lines 92-109:
derive the entry's filename, and when a resolved pin matches, substitute
the pinned source. -/
def rewriteEntry (ctx : RewriteCtx) (o : Oracles) (input : Input) : Except Err Input :=
  match Input.filename o input with
  | .error e => .error e
  | .ok f =>
    match lookupPin ctx.pins f with
    | some pin => .ok (Input.withSource input (pinApply ctx.pin_commit pin))
    | none => .ok input

/-- Line-start markers tested by the rewrite loop (src/main.rs lines 68, 75, 82). -/
def commitPre : Str := ['_', 'c', 'o', 'm', 'm', 'i', 't']

def tagPre : Str := ['_', 't', 'a', 'g']

def sourceEqM : Str := ['s', 'o', 'u', 'r', 'c', 'e', '=']

/-- `writeln!(out, "    \x22{}\x22", input)`: four spaces, a quote, the
displayed entry, a quote. -/
def quoteEntry (i : Input) : Str := [' ', ' ', ' ', ' ', '"'] ++ Input.render i ++ ['"']

/-- The lines consumed by the skip loop of src/main.rs lines 84-89: all
lines up to and including the first one ending in a closing parenthesis. -/
def skipSourceArray : List Str → List Str
  | [] => []
  | l :: rest => if l.getLast? = some ')' then rest else skipSourceArray rest

/-- The rewrite loop of src/main.rs lines 63-114, processing one manifest
line at a time.  The Boolean flag models being inside the inner skip loop
(lines 84-89); the emitted replacement array does not depend on the
skipped lines, so it is emitted on entering the skip.  Output is the list
of lines written with `writeln!`; the (possibly mutated) source list is
threaded through. -/
def processLines (ctx : RewriteCtx) (o : Oracles) :
    Bool → List Input → List Str → Except Err (List Str × List Input)
  | _, sources, [] => .ok ([], sources)
  | true, sources, l :: rest =>
    if l.getLast? = some ')' then processLines ctx o false sources rest
    else processLines ctx o true sources rest
  | false, sources, line :: rest =>
    if commitPre <+: line then
      match ctx.firstPin with
      | none => .error "Cant use _commit if no vcspins= is set"
      | some (_, pin) =>
        (processLines ctx o false sources rest).map fun r =>
          ((commitPre ++ '=' :: pin.commit_hash) :: r.1, r.2)
    else if tagPre <+: line then
      match ctx.firstPin with
      | none => .error "Cant use _tag= if no vcspins= is set"
      | some (_, pin) =>
        (processLines ctx o false sources rest).map fun r =>
          ((tagPre ++ '=' :: pin.tag_hash) :: r.1, r.2)
    else if sourceEqM <+: line then
      match mapExcept (rewriteEntry ctx o) sources with
      | .error e => .error e
      | .ok srcs =>
        (processLines ctx o true srcs rest).map fun r =>
          ((sourceEqM ++ ['(']) :: (srcs.map quoteEntry ++ [')'] :: r.1), r.2)
    else
      (processLines ctx o false sources rest).map fun r => (line :: r.1, r.2)

/-! ### The main flow (src/main.rs lines 14-125)

File-system access, the shell evaluation of the two array variables, the
git resolution (`git::run` together with `folder.join`), reading the
manifest, and the `HashMap` iteration order are external; a `World`
bundles them and the theorems quantify over all worlds.  `mainRun`
returns the single write-back action of lines 116-122: `none` when the
dry-run branch discards the output, otherwise the target path and the
output lines; an error return performs no write at all. -/

structure Args where
  verbose : Nat
  pkgbuild : Str
  dry_run : Bool
  output : Option Str
  pin_commit : Bool

structure World where
  /-- `fs::metadata(&args.pkgbuild)` succeeds. -/
  pkgbuildAccessible : Bool
  /-- Lines printed by the shell for the `vcspins` array. -/
  pinsRaw : Except Err (List Str)
  /-- Lines printed by the shell for the `source` array. -/
  sourcesRaw : Except Err (List Str)
  /-- `args.pkgbuild.parent()` exists. -/
  parentOk : Bool
  /-- `git::run(git, &folder.join(filename))`, keyed by the git source and
  the pin's filename. -/
  resolveGit : GitSource → Str → Except Err ResolvedPin
  /-- The decoded lines of the manifest file. -/
  manifestLines : Except Err (List Str)
  /-- The first entry yielded by `resolved_pins.iter()` (arbitrary order). -/
  chooseFirst : List (Str × ResolvedPin) → Option (Str × ResolvedPin)
  oracles : Oracles

/-- The pin-resolution loop of src/main.rs lines 43-57: derive each pin's
filename, reject File/Url pins, resolve Git pins, and accumulate the map. -/
def buildPins (w : World) : List Input → List (Str × ResolvedPin) →
    Except Err (List (Str × ResolvedPin))
  | [], acc => .ok acc
  | pin :: rest, acc =>
    match Input.filename w.oracles pin with
    | .error e => .error e
    | .ok filename =>
      match Input.takeSource pin with
      | .File _ => .error "File sources are not allowed in vcspins"
      | .Url _ => .error "Url sources are not allowed in vcspins"
      | .Git git =>
        match w.resolveGit git filename with
        | .error e => .error e
        | .ok resolved => buildPins w rest (insertPin acc filename resolved)

/-- src/main.rs lines 25-124 as a pure function of the world and the
arguments. -/
def mainRun (w : World) (args : Args) : Except Err (Option (Str × List Str)) :=
  if w.pkgbuildAccessible = false then .error "Failed to access PKGBUILD" else
  match w.pinsRaw with
  | .error e => .error e
  | .ok praw =>
    match mapExcept parseInputLine praw with
    | .error e => .error e
    | .ok vcspins =>
      if vcspins.isEmpty then .error "No vcs pins are configured (vcspins= is empty)" else
      match w.sourcesRaw with
      | .error e => .error e
      | .ok sraw =>
        match mapExcept parseInputLine sraw with
        | .error e => .error e
        | .ok sources =>
          if w.parentOk = false then .error "Failed to determine parent folder" else
          match buildPins w vcspins [] with
          | .error e => .error e
          | .ok resolved =>
            match w.manifestLines with
            | .error e => .error e
            | .ok lines =>
              match processLines ⟨resolved, w.chooseFirst resolved, args.pin_commit⟩
                  w.oracles false sources lines with
              | .error e => .error e
              | .ok (outs, _) =>
                if args.dry_run then .ok none
                else .ok (some (args.output.getD args.pkgbuild, outs))

/-! ### Spec-side definitions and fixtures -/

/-- The decoding procedure exactly as the specification describes it, as a
five-step pipeline: (1) strip one trailing `?signed`; (2) split on the
last `#commit=`; (3) split the remainder on the last `#tag=`; (4) strip
one trailing `?signed` from the remainder again; (5) the rest is the url.
Stated separately from `GitSource.decode` so that agreement with the
source can be proved. -/
def decodeSpec (s : Str) : GitSource :=
  let step1 : Bool × Str :=
    match stripSuffixQ s qsignedM with
    | some r => (true, r)
    | none => (false, s)
  let step2 : Option Str × Str :=
    match rsplitOnce step1.2 commitM with
    | some (r, v) => (some v, r)
    | none => (none, step1.2)
  let step3 : Option Str × Str :=
    match rsplitOnce step2.2 tagM with
    | some (r, v) => (some v, r)
    | none => (none, step2.2)
  let step4 : Bool × Str :=
    match stripSuffixQ step3.2 qsignedM with
    | some r => (true, r)
    | none => (step1.1, step3.2)
  ⟨step4.2, step2.1, step3.1, step4.1⟩

/-- The claims' side condition on a field value: it contains none of the
three literal markers. -/
def noMarkers (s : Str) : Prop :=
  ¬ qsignedM <:+: s ∧ ¬ commitM <:+: s ∧ ¬ tagM <:+: s

instance (s : Str) : Decidable (noMarkers s) := by
  unfold noMarkers; infer_instance

/-- Fixture oracles for the concrete witnesses. -/
def oW : Oracles := ⟨fun _ => some ['x'], fun _ => .ok (some [['x']])⟩

/-- Fixture world with an empty pin declaration. -/
def wEmpty : World :=
  ⟨true, .ok [], .ok [], true, fun _ _ => .error "unused", .ok [], List.head?, oW⟩

/-- Fixture resolved pin. -/
def pinW : ResolvedPin := ⟨['C'], ['T'], .Git ⟨['g'], none, none, false⟩⟩

/-- Fixture rewrite context with a single resolved pin for filename `r`. -/
def ctxW : RewriteCtx := ⟨[(['r'], pinW)], some (['r'], pinW), false⟩

/-- Fixture rewrite context with no resolved pins. -/
def ctxE : RewriteCtx := ⟨[], none, false⟩

/-- Fixture arguments. -/
def argsW : Args := ⟨0, ['P'], false, none, false⟩

/-- Fixture source list: one entry with explicit filename `r`. -/
def srcsW : List Input := [Input.UrlWithFilename (Source.File ['f'], ['r'])]

/-- The fixture source list after pin substitution in pin-tag mode. -/
def srcsW2 : List Input := [Input.UrlWithFilename (Source.Git ⟨['g'], none, some ['T'], false⟩, ['r'])]

/-- Fixture manifest line `source=(`. -/
def lineSrc : Str := ['s', 'o', 'u', 'r', 'c', 'e', '=', '(']

/-- Fixture manifest remainder for the source-array block. -/
def restW : List Str := [['x', ')'], ['z']]

/-- Fixture arguments with the dry-run flag set. -/
def argsDry : Args := ⟨0, ['P'], true, none, false⟩

/-! ### Toolkit: occurrence combinatorics for list strings -/

theorem pre_len {p x : Str} (h : p <+: x) : p.length ≤ x.length := by
  obtain ⟨t, rfl⟩ := h
  simp [ List.length_append]

theorem pre_take {p x : Str} (h : p <+: x) : x.take p.length = p := by
  obtain ⟨t, rfl⟩ := h
  exact List.take_left p t

theorem take_pre (x : Str) (k : Nat) : x.take k <+: x :=
  ⟨x.drop k, List.take_append_drop k x⟩

theorem drop_suf (x : Str) (k : Nat) : x.drop k <:+ x :=
  ⟨x.take k, List.take_append_drop k x⟩

theorem pre_head {p x : Str} (hp : p ≠ []) (h : p <+: x) : x.head? = p.head? := by
  obtain ⟨t, rfl⟩ := h
  cases p with
  | nil => exact absurd rfl hp
  | cons a l => rfl

theorem head_mem {l : Str} {a : Char} (h : l.head? = some a) : a ∈ l := by
  cases l <;> simp_all

theorem pre_inf {p s : Str} (h : p <+: s) : p <:+: s := by
  obtain ⟨t, rfl⟩ := h
  exact ⟨[], t, rfl⟩

theorem suf_inf {p s : Str} (h : p <:+ s) : p <:+: s := by
  obtain ⟨w, rfl⟩ := h
  exact ⟨w, [], by simp⟩

theorem preSuf_inf {p q s : Str} (h1 : p <+: q) (h2 : q <:+ s) : p <:+: s := by
  obtain ⟨t, rfl⟩ := h1
  obtain ⟨w, rfl⟩ := h2
  exact ⟨w, t, by simp⟩

theorem pre_comp {p q l : Str} (h1 : p <+: l) (h2 : q <+: l) : p <+: q ∨ q <+: p := by
  rcases Nat.le_total p.length q.length with hle | hle
  · left
    have hq := pre_take h2
    have hp := pre_take h1
    have hc : q.take p.length = p := by
      rw [← hq, List.take_take, Nat.min_eq_left hle, hp]
    exact hc ▸ take_pre q p.length
  · right
    have hq := pre_take h2
    have hp := pre_take h1
    have hc : p.take q.length = q := by
      rw [← hp, List.take_take, Nat.min_eq_left hle, hq]
    exact hc ▸ take_pre p q.length

theorem pre_split {p a b : Str} (h : p <+: a ++ b) :
    p <+: a ∨ ∃ r, p = a ++ r ∧ r <+: b := by
  rcases Nat.le_total p.length a.length with hle | hle
  · left
    have hp := pre_take h
    rw [List.take_append_of_le_length hle] at hp
    exact hp ▸ take_pre a p.length
  · right
    obtain ⟨t, ht⟩ := h
    refine ⟨p.drop a.length, ?_, t, ?_⟩
    · have : (p ++ t).take a.length = p.take a.length :=
        List.take_append_of_le_length hle
      rw [ht, List.take_left] at this
      calc p = p.take a.length ++ p.drop a.length := (List.take_append_drop _ p).symm
        _ = a ++ p.drop a.length := by rw [← this]
    · have h2 : (p ++ t).drop a.length = p.drop a.length ++ t :=
        List.drop_append_of_le_length hle
      rw [ht, List.drop_left] at h2
      exact h2.symm

theorem suf_split {p a b : Str} (h : p <:+ a ++ b) :
    p <:+ b ∨ ∃ q, q ≠ [] ∧ q <:+ a ∧ p = q ++ b := by
  obtain ⟨w, hw⟩ := h
  rcases Nat.le_total a.length w.length with hle | hle
  · left
    have hp : p = (a ++ b).drop w.length := by rw [← hw, List.drop_left]
    have h3 : (a ++ b).drop w.length = b.drop (w.length - a.length) := by
      have h4 := List.drop_drop (w.length - a.length) a.length (a ++ b)
      rw [List.drop_left] at h4
      have hw2 : a.length + (w.length - a.length) = w.length := by omega
      rw [hw2] at h4
      exact h4.symm
    rw [h3] at hp
    exact hp ▸ drop_suf b (w.length - a.length)
  · by_cases heq : w.length = a.length
    · left
      have hp : p = (a ++ b).drop w.length := by rw [← hw, List.drop_left]
      rw [heq, List.drop_left] at hp
      exact hp ▸ List.suffix_rfl
    · right
      have hlt : w.length < a.length := by omega
      refine ⟨a.drop w.length, ?_, drop_suf a w.length, ?_⟩
      · intro hnil
        have := congrArg List.length hnil
        simp [ List.length_drop] at this
        omega
      · have hp : p = (a ++ b).drop w.length := by rw [← hw, List.drop_left]
        rw [List.drop_append_of_le_length (Nat.le_of_lt hlt)] at hp
        exact hp

theorem inf_occ {p s : Str} (h : p <:+: s) : ∃ k, p <+: s.drop k := by
  obtain ⟨u, t, hs⟩ := h
  refine ⟨u.length, ?_⟩
  have : s.drop u.length = p ++ t := by
    rw [← hs, List.append_assoc, List.drop_left]
  exact this ▸ ⟨t, rfl⟩

theorem occ_inf {p s : Str} {k : Nat} (h : p <+: s.drop k) : p <:+: s := by
  obtain ⟨t, ht⟩ := h
  exact ⟨s.take k, t, by rw [List.append_assoc, ht, List.take_append_drop]⟩

theorem inf_cons {p l : Str} {c : Char} (h : p <:+: l) : p <:+: c :: l := by
  obtain ⟨s, t, rfl⟩ := h
  exact ⟨c :: s, t, rfl⟩

theorem strip_append (a pat : Str) : stripSuffixQ (a ++ pat) pat = some a := by
  unfold stripSuffixQ
  rw [if_pos ⟨a, rfl⟩]
  have hlen : (a ++ pat).length - pat.length = a.length := by
    simp [ List.length_append]
  rw [hlen, List.take_left]

theorem strip_none {s pat : Str} (h : ¬ pat <:+ s) : stripSuffixQ s pat = none := by
  unfold stripSuffixQ
  rw [if_neg h]

theorem lastOccFrom_eq (pat s : Str) (k : Nat) :
    ∀ n, k ≤ n → pat <+: s.drop k →
      (∀ j, k < j → j ≤ n → ¬ pat <+: s.drop j) → lastOccFrom pat s n = some k
  | 0, hk, hocc, _ => by
    have hk0 : k = 0 := Nat.le_zero.mp hk
    subst hk0
    rw [List.drop_zero] at hocc
    unfold lastOccFrom
    rw [if_pos hocc]
  | n + 1, hk, hocc, habove => by
    by_cases hkn : k = n + 1
    · subst hkn
      unfold lastOccFrom
      rw [if_pos hocc]
    · unfold lastOccFrom
      rw [if_neg (habove (n + 1) (by omega) (by omega))]
      exact lastOccFrom_eq pat s k n (by omega) hocc fun j h1 h2 => habove j h1 (by omega)

theorem lastOccFrom_none (pat s : Str) :
    ∀ n, (∀ j, j ≤ n → ¬ pat <+: s.drop j) → lastOccFrom pat s n = none
  | 0, h => by
    have h0 := h 0 (Nat.le_refl 0)
    rw [List.drop_zero] at h0
    unfold lastOccFrom
    rw [if_neg h0]
  | n + 1, h => by
    unfold lastOccFrom
    rw [if_neg (h (n + 1) (Nat.le_refl _))]
    exact lastOccFrom_none pat s n fun j hj => h j (by omega)

theorem rsplit_append {pat b : Str} (a : Str)
    (hnob : ∀ j, 0 < j → ¬ pat <+: (pat ++ b).drop j) :
    rsplitOnce (a ++ (pat ++ b)) pat = some (a, b) := by
  unfold rsplitOnce
  have hlen : a.length ≤ (a ++ (pat ++ b)).length := by
    simp [ List.length_append]
  have hocc : pat <+: (a ++ (pat ++ b)).drop a.length := by
    rw [List.drop_left]
    exact ⟨b, rfl⟩
  have habove : ∀ j, a.length < j → j ≤ (a ++ (pat ++ b)).length →
      ¬ pat <+: (a ++ (pat ++ b)).drop j := by
    intro j h1 _ hpre
    have hj : j = a.length + (j - a.length) := by omega
    rw [hj, ← List.drop_drop, List.drop_left] at hpre
    exact hnob (j - a.length) (by omega) hpre
  rw [lastOccFrom_eq pat _ a.length _ hlen hocc habove]
  have h1 : (a ++ (pat ++ b)).take a.length = a := List.take_left a _
  have h2 : (a ++ (pat ++ b)).drop (a.length + pat.length) = b := by
    rw [← List.drop_drop, List.drop_left, List.drop_left]
  show some ((a ++ (pat ++ b)).take a.length, (a ++ (pat ++ b)).drop (a.length + pat.length))
    = some (a, b)
  rw [h1, h2]

theorem rsplit_none {s pat : Str} (h : ¬ pat <:+: s) : rsplitOnce s pat = none := by
  unfold rsplitOnce
  rw [lastOccFrom_none pat s s.length fun j _ hp => h (occ_inf hp)]

theorem occ_after_zero {h : Char} {t b : Str} (hh : h ∉ t) (hb : ¬ (h :: t) <:+: b) :
    ∀ j, 0 < j → ¬ (h :: t) <+: ((h :: t) ++ b).drop j := by
  intro j hj hpre
  have hcons : ((h :: t) ++ b).drop j = (t ++ b).drop (j - 1) := by
    cases j with
    | zero => omega
    | succ n => simp [ List.drop_succ_cons]
  rw [hcons] at hpre
  rcases Nat.lt_or_ge (j - 1) t.length with hlt | hge
  · rw [List.drop_append_of_le_length (Nat.le_of_lt hlt)] at hpre
    have hne : t.drop (j - 1) ≠ [] := by
      intro hcnil
      have := congrArg List.length hcnil
      simp [ List.length_drop] at this
      omega
    have hhead := pre_head (by simp) hpre
    have hhead2 : (t.drop (j - 1) ++ b).head? = (t.drop (j - 1)).head? := by
      cases hdt : t.drop (j - 1) with
      | nil => exact absurd hdt hne
      | cons x xs => rfl
    rw [hhead2] at hhead
    have hmem : h ∈ t.drop (j - 1) := head_mem (by rw [hhead]; rfl)
    exact hh (List.drop_subset (j - 1) t hmem)
  · have hrest : (t ++ b).drop (j - 1) = b.drop (j - 1 - t.length) := by
      have h5 := List.drop_drop (j - 1 - t.length) t.length (t ++ b)
      rw [List.drop_left] at h5
      have h6 : t.length + (j - 1 - t.length) = j - 1 := by omega
      rw [h6] at h5
      exact h5.symm
    rw [hrest] at hpre
    exact hb (occ_inf hpre)

theorem no_occ_three {p M u c : Str}
    (hu : ¬ p <:+: u) (hc : ¬ p <:+: c) (hM : ¬ p <:+: M)
    (hMp : ¬ M <:+: p)
    (hstr : ∀ j, j < M.length → ¬ M.drop j <+: p)
    (hcr : ∀ r, r <:+ p → r ≠ [] → r ≠ p → ¬ r <+: M) :
    ¬ p <:+: u ++ (M ++ c) := by
  intro hinf
  obtain ⟨k, hk⟩ := inf_occ hinf
  rcases Nat.lt_or_ge k u.length with hku | hku
  · rw [List.drop_append_of_le_length (Nat.le_of_lt hku)] at hk
    rcases pre_split hk with h1 | ⟨r, hr1, hr2⟩
    · exact hu (preSuf_inf h1 (drop_suf u k))
    · by_cases hrnil : r = []
      · subst hrnil
        rw [List.append_nil] at hr1
        exact hu (suf_inf (hr1 ▸ drop_suf u k))
      · have hrsuf : r <:+ p := ⟨u.drop k, hr1.symm⟩
        have hrne : r ≠ p := by
          intro hre
          subst hre
          have := congrArg List.length hr1
          simp [ List.length_append, List.length_drop] at this
          omega
        rcases pre_split hr2 with h2 | ⟨r2, hr21, _⟩
        · exact hcr r hrsuf hrnil hrne h2
        · exact hMp (preSuf_inf ⟨r2, hr21.symm⟩ hrsuf)
  · rcases Nat.lt_or_ge k (u.length + M.length) with hkM | hkM
    · have hdrop : (u ++ (M ++ c)).drop k = M.drop (k - u.length) ++ c := by
        have h5 := List.drop_drop (k - u.length) u.length (u ++ (M ++ c))
        rw [List.drop_left, List.drop_append_of_le_length (by omega)] at h5
        have h6 : u.length + (k - u.length) = k := by omega
        rw [h6] at h5
        exact h5.symm
      rw [hdrop] at hk
      rcases pre_split hk with h1 | ⟨r, hr1, _⟩
      · exact hM (preSuf_inf h1 (drop_suf M (k - u.length)))
      · exact hstr (k - u.length) (by omega) ⟨r, hr1.symm⟩
    · have hdrop : (u ++ (M ++ c)).drop k = c.drop (k - u.length - M.length) := by
        have hfull : (u ++ (M ++ c)).drop (u.length + M.length) = c := by
          rw [← List.drop_drop, List.drop_left, List.drop_left]
        have h5 := List.drop_drop (k - u.length - M.length) (u.length + M.length) (u ++ (M ++ c))
        rw [hfull] at h5
        have h6 : u.length + M.length + (k - u.length - M.length) = k := by omega
        rw [h6] at h5
        exact h5.symm
      rw [hdrop] at hk
      exact hc (occ_inf hk)

theorem no_suffix_three {p M c : Str} (W : Str)
    (hc : ¬ p <:+: c)
    (hS1 : ∀ q, q <:+ M → q ≠ [] → ¬ q <+: p)
    (hS2 : ¬ M <:+: p) :
    ¬ p <:+ W ++ (M ++ c) := by
  intro hsuf
  rcases suf_split hsuf with h1 | ⟨q0, _, _, hq0⟩
  · rcases suf_split h1 with h2 | ⟨q, hqne, hqM, hqeq⟩
    · exact hc (suf_inf h2)
    · exact hS1 q hqM hqne ⟨c, hqeq.symm⟩
  · exact hS2 ⟨q0, c, by rw [List.append_assoc]; exact hq0.symm⟩

theorem splitOnce_append {pat : Str} (hpat : pat ≠ []) (b : Str) :
    ∀ a : Str, (∀ i, i < a.length → ¬ pat <+: (a ++ (pat ++ b)).drop i) →
      splitOnce pat (a ++ (pat ++ b)) = some (a, b)
  | [], _ => by
    rw [List.nil_append]
    cases hp : pat with
    | nil => exact absurd hp hpat
    | cons x xs =>
      subst hp
      show splitOnce (x :: xs) (x :: (xs ++ b)) = some ([], b)
      unfold splitOnce
      rw [if_pos (show (x :: xs) <+: x :: (xs ++ b) from ⟨b, rfl⟩)]
      show some ([], ((x :: xs) ++ b).drop (x :: xs).length) = some ([], b)
      rw [List.drop_left]
  | a0 :: a, hno => by
    have hcons : (a0 :: a) ++ (pat ++ b) = a0 :: (a ++ (pat ++ b)) := rfl
    have h0 : ¬ pat <+: a0 :: (a ++ (pat ++ b)) := by
      have := hno 0 (by simp)
      rwa [hcons, List.drop_zero] at this
    rw [hcons]
    unfold splitOnce
    rw [if_neg h0]
    have ih := splitOnce_append hpat b a fun i hi => by
      have := hno (i + 1) (by simp; omega)
      rwa [hcons, List.drop_succ_cons] at this
    rw [ih]

theorem splitOnce_none {pat : Str} : ∀ {l : Str}, ¬ pat <:+: l → splitOnce pat l = none
  | [], h => by
    unfold splitOnce
    rw [if_neg fun hp => h (pre_inf hp)]
  | c :: rest, h => by
    unfold splitOnce
    rw [if_neg fun hp => h (pre_inf hp)]
    rw [splitOnce_none fun hi => h (inf_cons hi)]

theorem mapExcept_len {α β : Type} {f : α → Except Err β} :
    ∀ {l : List α} {l2 : List β}, mapExcept f l = .ok l2 → l2.length = l.length
  | [], l2, h => by
    unfold mapExcept at h
    cases h
    rfl
  | x :: xs, l2, h => by
    unfold mapExcept at h
    cases hf : f x with
    | error e => rw [hf] at h; cases h
    | ok y =>
      rw [hf] at h
      cases hm : mapExcept f xs with
      | error e => rw [hm] at h; cases h
      | ok ys =>
        rw [hm] at h
        cases h
        simp [mapExcept_len hm]

theorem mapExcept_get {α β : Type} {f : α → Except Err β} :
    ∀ {l : List α} {l2 : List β}, mapExcept f l = .ok l2 →
      ∀ i (hi : i < l.length) (hi2 : i < l2.length),
        f (l.get ⟨i, hi⟩) = .ok (l2.get ⟨i, hi2⟩)
  | [], _, _, i, hi, _ => by simp at hi
  | x :: xs, l2, h, i, hi, hi2 => by
    unfold mapExcept at h
    cases hf : f x with
    | error e => rw [hf] at h; cases h
    | ok y =>
      rw [hf] at h
      cases hm : mapExcept f xs with
      | error e => rw [hm] at h; cases h
      | ok ys =>
        rw [hm] at h
        cases h
        cases i with
        | zero => simpa using hf
        | succ n => simpa using mapExcept_get hm n (by simpa using hi) (by simpa using hi2)

theorem proc_skip (ctx : RewriteCtx) (o : Oracles) :
    ∀ (ls : List Str) (sources : List Input),
      processLines ctx o true sources ls =
        processLines ctx o false sources (skipSourceArray ls)
  | [], sources => rfl
  | l :: rest, sources => by
    by_cases hl : l.getLast? = some ')'
    · have h1 : processLines ctx o true sources (l :: rest) =
          processLines ctx o false sources rest := by
        conv_lhs => rw [processLines]
        rw [if_pos hl]
      have h2 : skipSourceArray (l :: rest) = rest := by
        conv_lhs => rw [skipSourceArray]
        rw [if_pos hl]
      rw [h1, h2]
    · have h1 : processLines ctx o true sources (l :: rest) =
          processLines ctx o true sources rest := by
        conv_lhs => rw [processLines]
        rw [if_neg hl]
      have h2 : skipSourceArray (l :: rest) = skipSourceArray rest := by
        conv_lhs => rw [skipSourceArray]
        rw [if_neg hl]
      rw [h1, h2]
      exact proc_skip ctx o rest sources

/-! ### Claim theorems -/

/-- C4: for every input string, GitSource decoding performs exactly the
five steps in order — strip one trailing `?signed`, split on the last
`#commit=`, split the remainder on the last `#tag=`, strip a trailing
`?signed` from the remainder again, and take the rest as the url — so the
trailing signed marker is stripped twice, once before and once after
extracting the commit/tag suffixes. -/
theorem c4_decode_steps (s : Str) : GitSource.fromStr s = .ok (decodeSpec s) := by
  unfold GitSource.fromStr GitSource.decode decodeSpec
  rcases h1 : stripSuffixQ s qsignedM with _ | r1
  · rcases h2 : rsplitOnce s commitM with _ | ⟨r2, v2⟩
    · rcases h3 : rsplitOnce s tagM with _ | ⟨r3, v3⟩
      · simp [h1, h2, h3]
      · rcases h4 : stripSuffixQ r3 qsignedM with _ | r4 <;> simp [h1, h2, h3, h4]
    · rcases h3 : rsplitOnce r2 tagM with _ | ⟨r3, v3⟩
      · rcases h4 : stripSuffixQ r2 qsignedM with _ | r4 <;> simp [h1, h2, h3, h4]
      · rcases h4 : stripSuffixQ r3 qsignedM with _ | r4 <;> simp [h1, h2, h3, h4]
  · rcases h2 : rsplitOnce r1 commitM with _ | ⟨r2, v2⟩
    · rcases h3 : rsplitOnce r1 tagM with _ | ⟨r3, v3⟩
      · rcases h4 : stripSuffixQ r1 qsignedM with _ | r4 <;> simp [h1, h2, h3, h4]
      · rcases h4 : stripSuffixQ r3 qsignedM with _ | r4 <;> simp [h1, h2, h3, h4]
    · rcases h3 : rsplitOnce r2 tagM with _ | ⟨r3, v3⟩
      · rcases h4 : stripSuffixQ r2 qsignedM with _ | r4 <;> simp [h1, h2, h3, h4]
      · rcases h4 : stripSuffixQ r3 qsignedM with _ | r4 <;> simp [h1, h2, h3, h4]

/-- C10: GitSource decoding is total — it succeeds on every input string —
so the only Source parse failure at the public interface is the
unknown-scheme case: a `://` separator whose scheme is none of the three
literals and does not start with `git`. -/
theorem c10_decode_total (s : Str) :
    (∃ g, GitSource.fromStr s = .ok g) ∧
      ((∃ e, Source.fromStr s = .error e) ↔
        ∃ pr, splitOnce schemeSepM s = some pr ∧ pr.1 ≠ httpsM ∧ pr.1 ≠ httpM ∧
          pr.1 ≠ ftpM ∧ ¬ gitM <+: pr.1) := by
  refine ⟨⟨GitSource.decode s, rfl⟩, ?_⟩
  unfold Source.fromStr
  rcases hsp : splitOnce schemeSepM s with _ | ⟨scheme, rest⟩
  · simp
  · by_cases h1 : scheme = httpsM
    · simp [h1]
    · by_cases h2 : scheme = httpM
      · simp [h1, h2]
      · by_cases h3 : scheme = ftpM
        · simp [h1, h2, h3]
        · by_cases h4 : gitM <+: scheme
          · simp [h1, h2, h3, h4, GitSource.fromStr]
          · simp [h1, h2, h3, h4]

/-- C7: a manifest line that does not begin with `_commit`, `_tag`, or
`source=` is copied to the output unchanged, verbatim, at its original
position, and processing continues on the remaining lines. -/
theorem c7_frame (ctx : RewriteCtx) (o : Oracles) (sources : List Input) (line : Str)
    (rest : List Str)
    (h1 : ¬ commitPre <+: line) (h2 : ¬ tagPre <+: line) (h3 : ¬ sourceEqM <+: line) :
    processLines ctx o false sources (line :: rest) =
      (processLines ctx o false sources rest).map fun r => (line :: r.1, r.2) := by
  conv_lhs => rw [processLines]
  rw [if_neg h1, if_neg h2, if_neg h3]

/-- Witness for C7 at a concrete line. -/
theorem c7_frame_witness :
    processLines ctxW oW false [] [['h', 'i']] =
      (processLines ctxW oW false [] []).map (fun r => (['h', 'i'] :: r.1, r.2)) :=
  c7_frame ctxW oW [] ['h', 'i'] [] (by decide) (by decide) (by decide)

/-- C8: a raw manifest entry containing `::` is split on the first
occurrence only — the part before becomes the explicit filename, the rest
is parsed independently as a Source even if it contains `::` again — and a
line without `::` is parsed whole as a bare Source. -/
theorem c8_split_first :
    (∀ a b : Str, (∀ i, i < a.length → ¬ colonsM <+: (a ++ (colonsM ++ b)).drop i) →
      parseInputLine (a ++ (colonsM ++ b)) =
        (Source.fromStr b).map fun src => Input.UrlWithFilename (src, a)) ∧
    (∀ l : Str, ¬ colonsM <:+: l →
      parseInputLine l = (Source.fromStr l).map Input.Url) := by
  constructor
  · intro a b hfirst
    unfold parseInputLine
    rw [splitOnce_append (by decide) b a hfirst]
    show (match Source.fromStr b with
          | .ok source => Except.ok (Input.UrlWithFilename (source, a))
          | .error e => Except.error e) =
      (Source.fromStr b).map fun src => Input.UrlWithFilename (src, a)
    cases Source.fromStr b <;> rfl
  · intro l hno
    unfold parseInputLine
    rw [splitOnce_none hno]
    show (match Source.fromStr l with
          | .ok source => Except.ok (Input.Url source)
          | .error e => Except.error e) = (Source.fromStr l).map Input.Url
    cases Source.fromStr l <;> rfl

/-- Witness for C8: the remainder itself contains `::` and is still parsed
independently. -/
theorem c8_split_first_witness :
    parseInputLine (['n'] ++ (colonsM ++ ['g', 'i', 't', ':', '/', '/', 'h', '/', 'p', ':', ':', 'q'])) =
      (Source.fromStr ['g', 'i', 't', ':', '/', '/', 'h', '/', 'p', ':', ':', 'q']).map
        fun src => Input.UrlWithFilename (src, ['n']) :=
  c8_split_first.1 ['n'] ['g', 'i', 't', ':', '/', '/', 'h', '/', 'p', ':', ':', 'q'] (by decide)

/-- C3 (amended): deriving the filename of a `Source` — and hence of a
bare-source `Input` — never yields an empty string: it fails instead.  An
explicit-filename `Input` returns its stored filename without the
emptiness check. -/
theorem c3_filename_nonempty :
    (∀ (o : Oracles) (src : Source) (f : Str), Source.filename o src = .ok f → f ≠ []) ∧
    (∀ (o : Oracles) (src : Source) (f : Str),
      Input.filename o (.Url src) = .ok f → f ≠ []) := by
  have hbase : ∀ (o : Oracles) (src : Source) (f : Str),
      Source.filename o src = .ok f → f ≠ [] := by
    intro o src f h
    unfold Source.filename at h
    cases src with
    | File path =>
      cases hp : o.pathFileName path with
      | none => simp only [hp] at h; cases h
      | some g =>
        simp only [hp] at h
        by_cases hg : g = []
        · rw [if_pos hg] at h; cases h
        · rw [if_neg hg] at h
          injection h with h
          rw [← h]
          exact hg
    | Url url =>
      cases hp : o.urlSegs url with
      | error e => simp only [hp] at h; cases h
      | ok osegs =>
        cases osegs with
        | none => simp only [hp] at h; cases h
        | some segs =>
          simp only [hp] at h
          cases hL : segs.getLast? with
          | none => simp only [hL] at h; cases h
          | some g =>
            simp only [hL] at h
            by_cases hg : g = []
            · rw [if_pos hg] at h; cases h
            · rw [if_neg hg] at h
              injection h with h
              rw [← h]
              exact hg
    | Git git =>
      cases hp : o.urlSegs git.url with
      | error e => simp only [hp] at h; cases h
      | ok osegs =>
        cases osegs with
        | none => simp only [hp] at h; cases h
        | some segs =>
          simp only [hp] at h
          cases hL : segs.getLast? with
          | none => simp only [hL] at h; cases h
          | some g =>
            simp only [hL] at h
            by_cases hg : g = []
            · rw [if_pos hg] at h; cases h
            · rw [if_neg hg] at h
              injection h with h
              rw [← h]
              exact hg
  exact ⟨hbase, fun o src f h => hbase o src f h⟩

/-- Witness for C3 (amended). -/
theorem c3_filename_nonempty_witness :
    Source.filename oW (.File ['a']) = .ok ['x'] ∧ (['x'] : Str) ≠ [] :=
  ⟨rfl, c3_filename_nonempty.1 oW (.File ['a']) ['x'] rfl⟩

/-- Counterexample to C3 as stated: an explicit-filename `Input` whose
stored filename is empty derives the empty filename successfully instead
of failing. -/
theorem c3_filename_counterexample :
    Input.filename oW (.UrlWithFilename (.File ['x'], [])) = .ok [] := rfl

/-- C5: a line beginning with `_commit` is replaced by
`_commit=<commit_hash>` and a line beginning with `_tag` by
`_tag=<tag_hash>`, the hash taken from the arbitrarily chosen first entry
of the resolved-pin mapping (which belongs to the mapping), and the
replacement fails when the mapping is empty. -/
theorem c5_hash_lines (ctx : RewriteCtx) (o : Oracles) (sources : List Input) (line : Str)
    (rest : List Str)
    (hwf0 : ctx.firstPin = none ↔ ctx.pins = [])
    (hwfmem : ∀ e, ctx.firstPin = some e → e ∈ ctx.pins) :
    (commitPre <+: line →
      (ctx.pins = [] → processLines ctx o false sources (line :: rest) =
        .error "Cant use _commit if no vcspins= is set") ∧
      (∀ k pin, ctx.firstPin = some (k, pin) → (k, pin) ∈ ctx.pins ∧
        processLines ctx o false sources (line :: rest) =
          (processLines ctx o false sources rest).map fun r =>
            ((commitPre ++ '=' :: pin.commit_hash) :: r.1, r.2))) ∧
    (tagPre <+: line →
      (ctx.pins = [] → processLines ctx o false sources (line :: rest) =
        .error "Cant use _tag= if no vcspins= is set") ∧
      (∀ k pin, ctx.firstPin = some (k, pin) → (k, pin) ∈ ctx.pins ∧
        processLines ctx o false sources (line :: rest) =
          (processLines ctx o false sources rest).map fun r =>
            ((tagPre ++ '=' :: pin.tag_hash) :: r.1, r.2))) := by
  constructor
  · intro hcl
    constructor
    · intro hpins
      have hfp : ctx.firstPin = none := hwf0.mpr hpins
      conv_lhs => rw [processLines]
      rw [if_pos hcl, hfp]
    · intro k pin hfp
      refine ⟨hwfmem _ hfp, ?_⟩
      conv_lhs => rw [processLines]
      rw [if_pos hcl, hfp]
  · intro htl
    have hnc : ¬ commitPre <+: line := by
      intro hcp
      rcases pre_comp hcp htl with hcc | hcc
      · exact absurd hcc (by decide)
      · exact absurd hcc (by decide)
    constructor
    · intro hpins
      have hfp : ctx.firstPin = none := hwf0.mpr hpins
      conv_lhs => rw [processLines]
      rw [if_neg hnc, if_pos htl, hfp]
    · intro k pin hfp
      refine ⟨hwfmem _ hfp, ?_⟩
      conv_lhs => rw [processLines]
      rw [if_neg hnc, if_pos htl, hfp]

/-- Witness for C5: with an empty resolved-pin mapping, a `_commit` line
fails. -/
theorem c5_hash_lines_witness :
    processLines ctxE oW false [] [['_', 'c', 'o', 'm', 'm', 'i', 't']] =
      .error "Cant use _commit if no vcspins= is set" :=
  ((c5_hash_lines ctxE oW [] ['_', 'c', 'o', 'm', 'm', 'i', 't'] [] (by decide)
    (fun e h => nomatch h)).1 (by decide)).1 rfl

/-- Helper for C6: a successful `buildPins` run resolved every declared
pin: each pin's filename derivation succeeded, its source was a Git
source, and the git resolution succeeded. -/
theorem buildPins_resolves (w : World) :
    ∀ (pins : List Input) (acc res : List (Str × ResolvedPin)),
      buildPins w pins acc = .ok res →
      ∀ pin ∈ pins, ∃ f, Input.filename w.oracles pin = .ok f ∧
        ∃ g, Input.takeSource pin = .Git g ∧ ∃ r, w.resolveGit g f = .ok r
  | [], _, _, _ => by
    intro pin hmem
    cases hmem
  | p :: rest, acc, res, h => by
    intro pin hmem
    unfold buildPins at h
    cases hf : Input.filename w.oracles p with
    | error e => simp only [hf] at h; cases h
    | ok f =>
      simp only [hf] at h
      cases hs : Input.takeSource p with
      | File pth => simp only [hs] at h; cases h
      | Url u => simp only [hs] at h; cases h
      | Git g =>
        simp only [hs] at h
        cases hr : w.resolveGit g f with
        | error e => simp only [hr] at h; cases h
        | ok r =>
          simp only [hr] at h
          cases hmem with
          | head => exact ⟨f, hf, g, hs, r, hr⟩
          | tail _ hmem2 => exact buildPins_resolves w rest _ res h pin hmem2

/-- C2: on a `source=` line, the original array lines up to and including
the first line ending in a closing parenthesis are consumed and not
copied; one line per entry of the independently parsed source list is
emitted in the list's order; each entry whose derived filename matches a
resolved pin has its source replaced wholesale by the pinned source (tag
cleared and commit set in pin-commit mode, tag set in pin-tag mode), and
each entry with no matching pin is re-emitted via the display form. -/
theorem c2_source_array (ctx : RewriteCtx) (o : Oracles) (sources srcs : List Input)
    (line : Str) (rest : List Str)
    (hline : sourceEqM <+: line)
    (hok : mapExcept (rewriteEntry ctx o) sources = .ok srcs) :
    processLines ctx o false sources (line :: rest) =
      (processLines ctx o false srcs (skipSourceArray rest)).map
        (fun r => ((sourceEqM ++ ['(']) :: (srcs.map quoteEntry ++ [')'] :: r.1), r.2)) ∧
    srcs.length = sources.length ∧
    (∀ i (hi : i < sources.length) (hi2 : i < srcs.length) (f : Str),
      Input.filename o (sources.get ⟨i, hi⟩) = .ok f →
        (lookupPin ctx.pins f = none → srcs.get ⟨i, hi2⟩ = sources.get ⟨i, hi⟩) ∧
        (∀ pin, lookupPin ctx.pins f = some pin →
          srcs.get ⟨i, hi2⟩ =
            Input.withSource (sources.get ⟨i, hi⟩) (pinApply ctx.pin_commit pin))) := by
  refine ⟨?_, mapExcept_len hok, ?_⟩
  · have hnc : ¬ commitPre <+: line := by
      intro hcp
      rcases pre_comp hcp hline with hcc | hcc
      · exact absurd hcc (by decide)
      · exact absurd hcc (by decide)
    have hnt : ¬ tagPre <+: line := by
      intro hcp
      rcases pre_comp hcp hline with hcc | hcc
      · exact absurd hcc (by decide)
      · exact absurd hcc (by decide)
    conv_lhs => rw [processLines]
    rw [if_neg hnc, if_neg hnt, if_pos hline, hok]
    show (processLines ctx o true srcs rest).map
        (fun r => ((sourceEqM ++ ['(']) :: (srcs.map quoteEntry ++ [')'] :: r.1), r.2)) = _
    rw [proc_skip]
  · intro i hi hi2 f hf
    have hentry := mapExcept_get hok i hi hi2
    unfold rewriteEntry at hentry
    simp only [hf] at hentry
    constructor
    · intro hnone
      simp only [hnone, Except.ok.injEq] at hentry
      exact hentry.symm
    · intro pin hpin
      simp only [hpin, Except.ok.injEq] at hentry
      exact hentry.symm

/-- Witness for C2 at a concrete context, source list, and block. -/
theorem c2_source_array_witness :
    processLines ctxW oW false srcsW (lineSrc :: restW) =
      (processLines ctxW oW false srcsW2 (skipSourceArray restW)).map
        (fun r => ((sourceEqM ++ ['(']) :: (srcsW2.map quoteEntry ++ [')'] :: r.1), r.2)) :=
  (c2_source_array ctxW oW srcsW srcsW2 lineSrc restW (by decide) (by decide)).1

/-- C9: with the dry-run flag set, a run never produces a write action,
whatever the world does and whether or not resolution and rewriting
succeed. -/
theorem c9_dry_run (w : World) (args : Args) (hdry : args.dry_run = true) :
    ∀ p, mainRun w args ≠ .ok (some p) := by
  intro p hcontra
  unfold mainRun at hcontra
  by_cases hacc : w.pkgbuildAccessible = false
  · rw [if_pos hacc] at hcontra; cases hcontra
  · rw [if_neg hacc] at hcontra
    cases h1 : w.pinsRaw with
    | error e => simp only [h1] at hcontra; cases hcontra
    | ok praw =>
      simp only [h1] at hcontra
      cases h2 : mapExcept parseInputLine praw with
      | error e => simp only [h2] at hcontra; cases hcontra
      | ok vcspins =>
        simp only [h2] at hcontra
        by_cases h3 : vcspins.isEmpty = true
        · rw [if_pos h3] at hcontra; cases hcontra
        · rw [if_neg h3] at hcontra
          cases h4 : w.sourcesRaw with
          | error e => simp only [h4] at hcontra; cases hcontra
          | ok sraw =>
            simp only [h4] at hcontra
            cases h5 : mapExcept parseInputLine sraw with
            | error e => simp only [h5] at hcontra; cases hcontra
            | ok sources =>
              simp only [h5] at hcontra
              by_cases h6 : w.parentOk = false
              · rw [if_pos h6] at hcontra; cases hcontra
              · rw [if_neg h6] at hcontra
                cases h7 : buildPins w vcspins [] with
                | error e => simp only [h7] at hcontra; cases hcontra
                | ok resolved =>
                  simp only [h7] at hcontra
                  cases h8 : w.manifestLines with
                  | error e => simp only [h8] at hcontra; cases hcontra
                  | ok lines =>
                    simp only [h8] at hcontra
                    cases h9 : processLines ⟨resolved, w.chooseFirst resolved, args.pin_commit⟩
                        w.oracles false sources lines with
                    | error e => simp only [h9] at hcontra; cases hcontra
                    | ok pr =>
                      obtain ⟨outs, srcs2⟩ := pr
                      simp only [h9] at hcontra
                      rw [hdry] at hcontra
                      simp at hcontra

/-- Witness for C9 at a concrete world. -/
theorem c9_dry_run_witness : mainRun wEmpty argsDry ≠ .ok (some (['P'], [])) :=
  c9_dry_run wEmpty argsDry rfl (['P'], [])

/-- C6: the run is all-or-nothing.  A manifest whose `vcspins` array is
empty aborts with the no-pins error whatever the git resolver would do —
before any resolution attempt and before any write.  And whenever the run
returns a write action at all, the whole pipeline succeeded: the pins
were read and parsed, were nonempty, every declared pin resolved, the
manifest was read, the rewrite succeeded, and the action is exactly the
rewritten output (discarded under dry-run). -/
theorem c6_all_or_nothing :
    (∀ (w : World) (args : Args) (raw : List Str)
        (rg : GitSource → Str → Except Err ResolvedPin),
      w.pkgbuildAccessible = true → w.pinsRaw = .ok raw →
      mapExcept parseInputLine raw = .ok [] →
      mainRun { w with resolveGit := rg } args =
        .error "No vcs pins are configured (vcspins= is empty)") ∧
    (∀ (w : World) (args : Args) (act : Option (Str × List Str)),
      mainRun w args = .ok act →
      ∃ praw vcspins sraw sources resolved lines outs srcs2,
        w.pkgbuildAccessible = true ∧
        w.pinsRaw = .ok praw ∧ mapExcept parseInputLine praw = .ok vcspins ∧
        vcspins ≠ [] ∧
        w.sourcesRaw = .ok sraw ∧ mapExcept parseInputLine sraw = .ok sources ∧
        w.parentOk = true ∧
        buildPins w vcspins [] = .ok resolved ∧
        (∀ pin ∈ vcspins, ∃ f, Input.filename w.oracles pin = .ok f ∧
          ∃ g, Input.takeSource pin = .Git g ∧ ∃ r, w.resolveGit g f = .ok r) ∧
        w.manifestLines = .ok lines ∧
        processLines ⟨resolved, w.chooseFirst resolved, args.pin_commit⟩
            w.oracles false sources lines = .ok (outs, srcs2) ∧
        act = (if args.dry_run then none else some (args.output.getD args.pkgbuild, outs))) := by
  constructor
  · intro w args raw rg hacc hraw hparse
    unfold mainRun
    simp [hacc, hraw, hparse]
  · intro w args act h
    unfold mainRun at h
    by_cases hacc : w.pkgbuildAccessible = false
    · rw [if_pos hacc] at h; cases h
    · rw [if_neg hacc] at h
      have hacc2 : w.pkgbuildAccessible = true := by
        revert hacc
        cases w.pkgbuildAccessible <;> simp
      cases h1 : w.pinsRaw with
      | error e => simp only [h1] at h; cases h
      | ok praw =>
        simp only [h1] at h
        cases h2 : mapExcept parseInputLine praw with
        | error e => simp only [h2] at h; cases h
        | ok vcspins =>
          simp only [h2] at h
          by_cases h3 : vcspins.isEmpty = true
          · rw [if_pos h3] at h; cases h
          · rw [if_neg h3] at h
            have hvne : vcspins ≠ [] := by
              intro he
              exact h3 (by rw [he]; rfl)
            cases h4 : w.sourcesRaw with
            | error e => simp only [h4] at h; cases h
            | ok sraw =>
              simp only [h4] at h
              cases h5 : mapExcept parseInputLine sraw with
              | error e => simp only [h5] at h; cases h
              | ok sources =>
                simp only [h5] at h
                by_cases h6 : w.parentOk = false
                · rw [if_pos h6] at h; cases h
                · rw [if_neg h6] at h
                  have h6b : w.parentOk = true := by
                    revert h6
                    cases w.parentOk <;> simp
                  cases h7 : buildPins w vcspins [] with
                  | error e => simp only [h7] at h; cases h
                  | ok resolved =>
                    simp only [h7] at h
                    cases h8 : w.manifestLines with
                    | error e => simp only [h8] at h; cases h
                    | ok lines =>
                      simp only [h8] at h
                      cases h9 : processLines ⟨resolved, w.chooseFirst resolved, args.pin_commit⟩
                          w.oracles false sources lines with
                      | error e => simp only [h9] at h; cases h
                      | ok pr =>
                        obtain ⟨outs, srcs2⟩ := pr
                        simp only [h9] at h
                        refine ⟨praw, vcspins, sraw, sources, resolved, lines, outs, srcs2,
                          hacc2, rfl, h2, hvne, rfl, h5, h6b, h7,
                          buildPins_resolves w vcspins [] resolved h7, rfl, h9, ?_⟩
                        by_cases hd : args.dry_run
                        · rw [if_pos hd] at h
                          rw [if_pos hd]
                          injection h with h
                          exact h.symm
                        · rw [if_neg hd] at h
                          rw [if_neg hd]
                          injection h with h
                          exact h.symm

/-- Witness for C6: a run with an empty pin list aborts with the no-pins
error (for an arbitrary concrete resolver). -/
theorem c6_all_or_nothing_witness :
    mainRun { wEmpty with resolveGit := fun _ _ => Except.error "other" } argsW =
      .error "No vcs pins are configured (vcspins= is empty)" :=
  c6_all_or_nothing.1 wEmpty argsW [] (fun _ _ => Except.error "other") rfl rfl rfl

/-- Bridge from a decidable statement over `tails` to a statement over all
suffixes. -/
theorem tails_suffix_all {P : Str → Prop} {M : Str}
    (h : ∀ q ∈ M.tails, P q) : ∀ q, q <:+ M → P q :=
  fun q hq => h q ((List.mem_tails q M).mpr hq)

/-- Counterexample to C1 as stated: with both commit and tag set (and no
field containing any marker), the roundtrip fails — decoding splits on the
last `#commit=` first, so the commit capture swallows the `#tag=` suffix
that encoding emitted after it. -/
theorem c1_roundtrip_counterexample :
    noMarkers ['u'] ∧ noMarkers ['c'] ∧ noMarkers ['t'] ∧
      GitSource.fromStr (GitSource.render ⟨['u'], some ['c'], some ['t'], false⟩) ≠
        .ok ⟨['u'], some ['c'], some ['t'], false⟩ := by
  decide

/-- C1 (amended): for every GitSource whose field values contain none of
the literal markers `?signed`, `#commit=`, `#tag=`, and in which commit
and tag are not both set simultaneously, decoding the encoded string form
yields the value back. -/
theorem c1_roundtrip (x : GitSource)
    (hu : noMarkers x.url)
    (hco : ∀ c, x.commit = some c → noMarkers c)
    (hta : ∀ t, x.tag = some t → noMarkers t)
    (hnotboth : x.commit = none ∨ x.tag = none) :
    GitSource.fromStr (GitSource.render x) = .ok x := by
  obtain ⟨u, co, ta, sg⟩ := x
  obtain ⟨hu1, hu2, hu3⟩ :=
    (hu : ¬ qsignedM <:+: u ∧ ¬ commitM <:+: u ∧ ¬ tagM <:+: u)
  unfold GitSource.fromStr
  congr 1
  cases co with
  | none =>
    cases ta with
    | none =>
      cases sg with
      | false =>
        have hr : GitSource.render ⟨u, none, none, false⟩ = u := by
          simp [GitSource.render]
        rw [hr]
        have h1 : stripSuffixQ u qsignedM = none := strip_none fun hs => hu1 (suf_inf hs)
        have h2 : rsplitOnce u commitM = none := rsplit_none hu2
        have h3 : rsplitOnce u tagM = none := rsplit_none hu3
        simp only [GitSource.decode, h1, h2, h3]
      | true =>
        have hr : GitSource.render ⟨u, none, none, true⟩ = u ++ qsignedM := by
          simp [GitSource.render]
        rw [hr]
        have h1 : stripSuffixQ (u ++ qsignedM) qsignedM = some u := strip_append u qsignedM
        have h2 : rsplitOnce u commitM = none := rsplit_none hu2
        have h3 : rsplitOnce u tagM = none := rsplit_none hu3
        have h4 : stripSuffixQ u qsignedM = none := strip_none fun hs => hu1 (suf_inf hs)
        simp only [GitSource.decode, h1, h2, h3, h4]
    | some t =>
      obtain ⟨ht1, ht2, ht3⟩ :=
        (hta t rfl : ¬ qsignedM <:+: t ∧ ¬ commitM <:+: t ∧ ¬ tagM <:+: t)
      cases sg with
      | false =>
        have hr : GitSource.render ⟨u, none, some t, false⟩ = u ++ (tagM ++ t) := by
          simp [GitSource.render, List.append_assoc]
        rw [hr]
        have h1 : stripSuffixQ (u ++ (tagM ++ t)) qsignedM = none :=
          strip_none (no_suffix_three u ht1 (tails_suffix_all (by decide)) (by decide))
        have h2 : rsplitOnce (u ++ (tagM ++ t)) commitM = none :=
          rsplit_none (no_occ_three hu2 ht2 (by decide) (by decide) (by decide)
            (tails_suffix_all (by decide)))
        have h3 : rsplitOnce (u ++ (tagM ++ t)) tagM = some (u, t) :=
          rsplit_append u (occ_after_zero (by decide) ht3)
        have h4 : stripSuffixQ u qsignedM = none := strip_none fun hs => hu1 (suf_inf hs)
        simp only [GitSource.decode, h1, h2, h3, h4]
      | true =>
        have hr : GitSource.render ⟨u, none, some t, true⟩ =
            (u ++ qsignedM) ++ (tagM ++ t) := by
          simp [GitSource.render, List.append_assoc]
        rw [hr]
        have h1 : stripSuffixQ ((u ++ qsignedM) ++ (tagM ++ t)) qsignedM = none :=
          strip_none (no_suffix_three (u ++ qsignedM) ht1
            (tails_suffix_all (by decide)) (by decide))
        have e1 : (u ++ qsignedM) ++ (tagM ++ t) = u ++ ((qsignedM ++ tagM) ++ t) := by
          simp [List.append_assoc]
        have h2 : rsplitOnce ((u ++ qsignedM) ++ (tagM ++ t)) commitM = none := by
          rw [e1]
          exact rsplit_none (no_occ_three hu2 ht2 (by decide) (by decide) (by decide)
            (tails_suffix_all (by decide)))
        have h3 : rsplitOnce ((u ++ qsignedM) ++ (tagM ++ t)) tagM =
            some (u ++ qsignedM, t) :=
          rsplit_append (u ++ qsignedM) (occ_after_zero (by decide) ht3)
        have h4 : stripSuffixQ (u ++ qsignedM) qsignedM = some u := strip_append u qsignedM
        simp only [GitSource.decode, h1, h2, h3, h4]
  | some c =>
    obtain ⟨hc1, hc2, hc3⟩ :=
      (hco c rfl : ¬ qsignedM <:+: c ∧ ¬ commitM <:+: c ∧ ¬ tagM <:+: c)
    have hta0 : ta = none := by
      rcases hnotboth with h | h
      · cases h
      · exact h
    subst hta0
    cases sg with
    | false =>
      have hr : GitSource.render ⟨u, some c, none, false⟩ = u ++ (commitM ++ c) := by
        simp [GitSource.render, List.append_assoc]
      rw [hr]
      have h1 : stripSuffixQ (u ++ (commitM ++ c)) qsignedM = none :=
        strip_none (no_suffix_three u hc1 (tails_suffix_all (by decide)) (by decide))
      have h2 : rsplitOnce (u ++ (commitM ++ c)) commitM = some (u, c) :=
        rsplit_append u (occ_after_zero (by decide) hc2)
      have h3 : rsplitOnce u tagM = none := rsplit_none hu3
      have h4 : stripSuffixQ u qsignedM = none := strip_none fun hs => hu1 (suf_inf hs)
      simp only [GitSource.decode, h1, h2, h3, h4]
    | true =>
      have hr : GitSource.render ⟨u, some c, none, true⟩ =
          (u ++ qsignedM) ++ (commitM ++ c) := by
        simp [GitSource.render, List.append_assoc]
      rw [hr]
      have h1 : stripSuffixQ ((u ++ qsignedM) ++ (commitM ++ c)) qsignedM = none :=
        strip_none (no_suffix_three (u ++ qsignedM) hc1
          (tails_suffix_all (by decide)) (by decide))
      have h2 : rsplitOnce ((u ++ qsignedM) ++ (commitM ++ c)) commitM =
          some (u ++ qsignedM, c) :=
        rsplit_append (u ++ qsignedM) (occ_after_zero (by decide) hc2)
      have h3inf : ¬ tagM <:+: u ++ (qsignedM ++ ([] : Str)) :=
        no_occ_three hu3 (by decide) (by decide) (by decide) (by decide)
          (tails_suffix_all (by decide))
      rw [List.append_nil] at h3inf
      have h3 : rsplitOnce (u ++ qsignedM) tagM = none := rsplit_none h3inf
      have h4 : stripSuffixQ (u ++ qsignedM) qsignedM = some u := strip_append u qsignedM
      simp only [GitSource.decode, h1, h2, h3, h4]

/-- Witness for C1 (amended) at a concrete GitSource. -/
theorem c1_roundtrip_witness :
    noMarkers ['u'] ∧
      GitSource.fromStr (GitSource.render ⟨['u'], some ['c'], none, true⟩) =
        .ok ⟨['u'], some ['c'], none, true⟩ :=
  ⟨by decide, c1_roundtrip ⟨['u'], some ['c'], none, true⟩ (by decide)
    (fun c h => by cases h; decide) (fun t h => nomatch h) (Or.inr rfl)⟩

end Updvcspins
